import Mathlib

/-!
Verification of the span-marking and canonical-grouping core of
`solutions/set_expansion/prepare_data.py` and of the normalizer
`spacy_normalizer` in `nlp_architect/utils/text.py`.

Python string primitives (`str.replace`, `x in s`, `str.split`, `str.strip`,
`str.isupper`, `str.endswith`) are embedded below as executable functions on
`List Char`; the external NLTK stemmer and the spacy lemmatizer are kept as
function parameters (`stem`, `lemmatize`), as is the parser output
(tokens and noun-chunk spans per line).
-/

/-! ### Python string primitives, embedded on `List Char` -/

/-- Assoc-list lookup; models Python `d[k]` / `k in d` for a `dict`. -/
def lookupA {β : Type} : List (String × β) → String → Option β
  | [], _ => none
  | (k, v) :: t, q => if q = k then some v else lookupA t q

/-- Assoc-list update; models Python `d[k] = v`: an existing key keeps its
position, a fresh key is appended at the end (dict insertion order). -/
def setA {β : Type} : List (String × β) → String → β → List (String × β)
  | [], k, v => [(k, v)]
  | (k', v') :: t, k, v => if k' = k then (k, v) :: t else (k', v') :: setA t k v

theorem lookupA_setA_eq {β : Type} (l : List (String × β)) (k : String) (v : β) :
    lookupA (setA l k v) k = some v := by
  induction l with
  | nil => simp [setA, lookupA]
  | cons h t ih =>
    obtain ⟨k', v'⟩ := h
    by_cases hk : k' = k
    · simp [setA, hk, lookupA]
    · simp [setA, hk, lookupA, Ne.symm hk, ih]

theorem lookupA_setA_ne {β : Type} (l : List (String × β)) (k q : String) (v : β)
    (h : q ≠ k) : lookupA (setA l k v) q = lookupA l q := by
  induction l with
  | nil => simp [setA, lookupA, h]
  | cons hd t ih =>
    obtain ⟨k', v'⟩ := hd
    by_cases hk : k' = k
    · subst hk
      simp [setA, lookupA, h, ih]
    · by_cases hq : q = k'
      · simp [setA, hk, lookupA, hq]
      · simp [setA, hk, lookupA, hq, ih]

/-- Replace each character by a character list; used to reason about
single-character-pattern replacement. -/
def expandChars (f : Char → List Char) : List Char → List Char
  | [] => []
  | c :: cs => f c ++ expandChars f cs

/-- Fuel-driven worker for Python `str.replace`: scan left to right, replace
each non-overlapping occurrence of `pat`. -/
def replaceAux (pat rep : List Char) : Nat → List Char → List Char
  | 0, s => s
  | fuel + 1, s =>
    match s with
    | [] => []
    | c :: cs =>
      if pat ≠ [] ∧ pat.isPrefixOf s then
        rep ++ replaceAux pat rep fuel (s.drop pat.length)
      else
        c :: replaceAux pat rep fuel cs

/-- Python `s.replace(pat, rep)` (for nonempty `pat`, as in the source: the
marker is 1-2 characters and the other pattern is a single space). -/
def pyReplace (s pat rep : String) : String :=
  ⟨replaceAux pat.data rep.data s.data.length s.data⟩

/-- Python `pat in s` (substring containment). -/
def containsList : List Char → List Char → Bool
  | [], pat => pat.isPrefixOf ([] : List Char)
  | c :: cs, pat => pat.isPrefixOf (c :: cs) || containsList cs pat

/-- Python `pat in s` on `String`. -/
def pyContains (s pat : String) : Bool := containsList s.data pat.data

/-- Split at every character satisfying `p`, keeping empty fragments
(Python `re.split` with a character class). -/
def splitOnPred (p : Char → Bool) : List Char → List (List Char)
  | [] => [[]]
  | c :: cs =>
    let r := splitOnPred p cs
    if p c then [] :: r
    else
      match r with
      | [] => [[c]]
      | h :: t => (c :: h) :: t

/-- Python `s.split(sep)` for a single-character separator, keeping empty
fragments. -/
def splitOnChar (sep : Char) (l : List Char) : List (List Char) :=
  splitOnPred (fun c => c = sep) l

/-- Fuel-driven worker for Python `s.split()` (split on whitespace runs,
dropping empty fragments). -/
def splitWsF : Nat → List Char → List (List Char)
  | _, [] => []
  | 0, _ :: _ => []
  | fuel + 1, c :: cs =>
    if c.isWhitespace then splitWsF fuel cs
    else (c :: cs.takeWhile (fun x => !x.isWhitespace)) ::
      splitWsF fuel (cs.dropWhile (fun x => !x.isWhitespace))

/-- Python `s.split()`: whitespace-separated words. -/
def splitWsList (l : List Char) : List (List Char) := splitWsF l.length l

/-- Python `s.strip()`: drop leading and trailing whitespace. -/
def stripWs (l : List Char) : List Char :=
  ((l.dropWhile Char.isWhitespace).reverse.dropWhile Char.isWhitespace).reverse

/-- Python `' '.join(l)`. -/
def joinSp : List String → String
  | [] => ""
  | [s] => s
  | s :: t :: r => s ++ " " ++ joinSp (t :: r)

/-- Join character lists with a separator list (for the spec-side definition
of run-collapsing marking). -/
def joinWith (sep : List Char) : List (List Char) → List Char
  | [] => []
  | [w] => w
  | w :: x :: r => w ++ sep ++ joinWith sep (x :: r)

/-- Python `len(s.strip()) > 0`: `s` has a non-whitespace character. -/
def hasNonWs (s : String) : Bool := s.data.any (fun c => !c.isWhitespace)

/-- Python `s.isupper()`: at least one cased character, and every cased
character is upper case (ASCII letters are the cased characters here). -/
def pyIsUpper (s : String) : Bool :=
  s.data.any (fun c => c.isAlpha) && s.data.all (fun c => !c.isAlpha || c.isUpper)

/-- Python `s.endswith('S')`. -/
def pyEndsWithS (s : String) : Bool := s.data.getLast? == some 'S'

/-! ### `nlp_architect/utils/text.py`: `spacy_normalizer` -/

/-- The separator class `p = re.compile(r'[ \-,;.@&_]')` of `text.py`. -/
def pSep (c : Char) : Bool :=
  c = ' ' || c = '-' || c = ',' || c = ';' || c = '.' || c = '@' || c = '&' || c = '_'

/-- The guard of `spacy_normalizer`/`simple_normalizer`: `str(text).isupper()
and str(text).endswith('S') and len(text.split()) == 1` (the source tests the
negation of each conjunct and skips normalization when all three hold). -/
def guardSkip (text : String) : Bool :=
  pyIsUpper text && pyEndsWithS text && (splitWsList text.data).length == 1

/-- Python truthiness of the `lemma` argument (`if lemma:`): not `None` and
not the empty string. -/
def lemmaTruthy : Option String → Bool
  | none => false
  | some s => !(s == "")

/-- `spacy_normalizer(text, lemma)` from `text.py`, with the external NLTK
`EnglishStemmer().stem` and the spacy lemmatizer
`spacy_lemmatizer(t, u'NOUN')[0]` as parameters `stem` and `lemmatize`. -/
def spacy_normalizer (stem lemmatize : String → String)
    (text : String) (lemma_ : Option String) : String :=
  if guardSkip text then text
  else
    let tokens : List String :=
      ((splitOnPred pSep (stripWs text.data)).filter (fun w => w ≠ [])).map
        (fun w => (⟨w⟩ : String))
    if lemmaTruthy lemma_ then
      joinSp ((((lemma_.getD "").data |> splitOnChar ' ').map
        (fun w => (⟨w⟩ : String))).map stem)
    else
      joinSp (tokens.map (fun t => stem (lemmatize t)))

example : spacy_normalizer (fun s => s) (fun s => s) "NYS" (some "x y") = "NYS" := by decide
example : spacy_normalizer (fun s => s) (fun s => s) "pp" (some "k1") = "k1" := by decide
example : spacy_normalizer (fun s => s) (fun s => s) "a-b.c" none = "a b c" := by decide
example : pyReplace "a  b" " " "_" = "a__b" := by decide
example : pyContains "a_b" "_" = true := by decide
example : pyContains "ab" "_" = false := by decide

/-! ### `solutions/set_expansion/prepare_data.py`: span marking and grouping -/

/-- A parser token for one line: `token.text` and `token.idx` (character
offset of the token start in the line). -/
structure Token where
  text : String
  idx : Nat
deriving DecidableEq, Repr

/-- A noun-chunk span for one line: `span.start_char`, `span.end_char`
(half-open character range), `span.text`, `span.lemma_`. -/
structure Span where
  start_char : Nat
  end_char : Nat
  text : String
  lemma_ : String
deriving DecidableEq, Repr

/-- The four process-wide grouping tables of `prepare_data.py`. -/
structure GroupState where
  np2id : List (String × String)
  id2group : List (String × List String)
  id2rep : List (String × String)
  np2count : List (String × Nat)
deriving DecidableEq, Repr

/-- All four tables start empty at process start. -/
def emptyGroupState : GroupState := ⟨[], [], [], []⟩

/-- Count lookup with default 0 (reads of `np2count`). -/
def cntD (m : List (String × Nat)) (v : String) : Nat := (lookupA m v).getD 0

/-- `if np not in np2count: np2count[np] = 1 else: np2count[np] += 1`. -/
def bumpCount (m : List (String × Nat)) (np : String) : List (String × Nat) :=
  match lookupA m np with
  | none => setA m np 1
  | some c => setA m np (c + 1)

/-- `if args.mark_char in norm: norm = norm.replace(args.mark_char, ' ')`:
the marker-collision substitution applied to a normalized key. -/
def substMark (mark norm : String) : String :=
  if pyContains norm mark then pyReplace norm mark " " else norm

/-- `text = norm.replace(' ', args.mark_char) + args.mark_char`: the token
emitted for a grouped span. -/
def emitKey (mark norm : String) : String := pyReplace norm " " mark ++ mark

/-- One execution of the grouping block of `prepare_data.py` for an accepted
span occurrence with text `np` and lemma `lemma_`; `normalize` stands for
`spacy_normalizer` applied with the process stemmer/lemmatizer. Returns the
updated tables and the emitted marked token.
The read `np2count[id2rep[norm]]` is total here via a default; in the source
the key is always present when that line runs. -/
def processOccurrence (mark : String) (normalize : String → String → String)
    (st : GroupState) (np lemma_ : String) : GroupState × String :=
  let np2count := bumpCount st.np2count np
  let norm := substMark mark (normalize np lemma_)
  let np2id := setA st.np2id np norm
  -- if norm not in id2rep: id2rep[norm] = np
  let id2rep1 :=
    match lookupA st.id2rep norm with
    | none => setA st.id2rep norm np
    | some _ => st.id2rep
  let out := emitKey mark norm
  match lookupA st.id2group norm with
  | some g =>
    if np ∉ g then
      -- if np not in id2group[norm]: id2group[norm].append(np)
      (⟨np2id, setA st.id2group norm (g ++ [np]), id2rep1, np2count⟩, out)
    else
      -- elif np2count[np] > np2count[id2rep[norm]]: id2rep[norm] = np
      let rep := (lookupA id2rep1 norm).getD ""
      if cntD np2count np > cntD np2count rep then
        (⟨np2id, st.id2group, setA id2rep1 norm np, np2count⟩, out)
      else
        (⟨np2id, st.id2group, id2rep1, np2count⟩, out)
  | none =>
    -- else: id2group[norm] = [np]; id2rep[norm] = np
    (⟨np2id, setA st.id2group norm [np], setA id2rep1 norm np, np2count⟩, out)

/-- Configuration of the marking loop: `args.grouping`, `args.mark_char`, and
the normalizer (`spacy_normalizer` with the process stemmer/lemmatizer). -/
structure LineCfg where
  grouping : Bool
  mark_char : String
  normalize : String → String → String

/-- Per-line loop state: the remaining span queue, the active span (`span`),
the `spanWritten` flag, and the shared grouping tables. -/
structure MarkState where
  rest : List Span
  span : Option Span
  spanWritten : Bool
  g : GroupState

/-- The body of `for token in doc:` in `prepare_data.py`: one token is
consumed, output text is produced, and the state is updated. -/
def processToken (cfg : LineCfg) (st : MarkState) (tok : Token) : MarkState × String :=
  match st.span with
  | none => (st, if hasNonWs tok.text then tok.text ++ " " else "")
  | some sp =>
    if tok.idx < sp.start_char ∨ tok.idx ≥ sp.end_char then
      -- outside a span
      (st, if hasNonWs tok.text then tok.text ++ " " else "")
    else
      let (g', out) :=
        if !st.spanWritten then
          if sp.text.length > 1 ∧ sp.lemma_ ≠ "-PRON-" then
            if cfg.grouping then
              let (g', t) := processOccurrence cfg.mark_char cfg.normalize st.g sp.text sp.lemma_
              (g', t ++ " ")
            else
              (st.g, pyReplace sp.text " " cfg.mark_char ++ cfg.mark_char ++ " ")
          else
            (st.g, sp.text ++ " ")
        else (st.g, "")
      if tok.idx + tok.text.length = sp.end_char then
        match st.rest with
        | s :: r => (⟨r, some s, false, g'⟩, out)
        | [] => (⟨[], none, false, g'⟩, out)
      else
        (⟨st.rest, some sp, true, g'⟩, out)

/-- Fold `processToken` over the token list, concatenating the output. -/
def processTokens (cfg : LineCfg) (st : MarkState) : List Token → MarkState × String
  | [] => (st, "")
  | t :: ts =>
    let (st', o) := processToken cfg st t
    let (st'', o') := processTokens cfg st' ts
    (st'', o ++ o')

/-- One line of the corpus loop: initialize the span cursor from the span
list, walk the tokens, and terminate the line with a newline. -/
def processLine (cfg : LineCfg) (g : GroupState)
    (toks : List Token) (spans : List Span) : GroupState × String :=
  let st0 : MarkState :=
    match spans with
    | s :: r => ⟨r, some s, false, g⟩
    | [] => ⟨[], none, false, g⟩
  let (st, out) := processTokens cfg st0 toks
  (st.g, out ++ "\n")

/-- The whole corpus pass: lines in order, grouping tables threaded through. -/
def processCorpus (cfg : LineCfg) :
    GroupState → List (List Token × List Span) → GroupState × String
  | g, [] => (g, "")
  | g, (toks, spans) :: rest =>
    let (g', out) := processLine cfg g toks spans
    let (g'', out') := processCorpus cfg g' rest
    (g'', out ++ out')

/-- The normalizer exactly as `prepare_data.py` calls it:
`spacy_normalizer(np, span.lemma_)`. -/
def prepareNormalize (stem lemmatize : String → String) : String → String → String :=
  fun np lemma_ => spacy_normalizer stem lemmatize np (some lemma_)

/-- Fold the grouping block over a list of accepted span occurrences
`(text, lemma)`; this is the grouping-table evolution of a corpus in which
these occurrences are accepted in this order. -/
def foldOccs (mark : String) (normalize : String → String → String)
    (st : GroupState) (l : List (String × String)) : GroupState :=
  l.foldl (fun s o => (processOccurrence mark normalize s o.1 o.2).1) st

-- sanity checks (Example 1 of the spec, with the trailing space the code produces)
example :
    (processLine ⟨false, "_", fun np _ => np⟩ emptyGroupState
      [⟨"The", 0⟩, ⟨"climate", 4⟩, ⟨"change", 12⟩, ⟨"is", 19⟩, ⟨"real", 22⟩]
      [⟨4, 18, "climate change", "climate change"⟩]).2 =
    "The climate_change_ is real \n" := by decide

example :
    (processLine ⟨false, "_", fun np _ => np⟩ emptyGroupState
      [⟨"a", 0⟩, ⟨"b", 3⟩] [⟨0, 4, "a  b", "x"⟩]).2 = "a__b_ \n" := by decide

/-! ### Characterization of one grouping-block execution -/

/-- The normalized key actually used by the grouping block for an
occurrence: `spacy_normalizer` output after marker-collision substitution. -/
def normOf (mark : String) (nz : String → String → String) (np lem : String) : String :=
  substMark mark (nz np lem)

/-- Value of `id2group[norm]` after one grouping-block execution. -/
def groupNew (og : Option (List String)) (np : String) : List String :=
  match og with
  | none => [np]
  | some g => if np ∈ g then g else g ++ [np]

/-- Value of `id2rep[norm]` after one grouping-block execution, as a function
of the previous `id2group[norm]`, previous `id2rep[norm]`, and the already
incremented counts. -/
def repNew (og : Option (List String)) (orr : Option String)
    (c : List (String × Nat)) (np : String) : String :=
  match og, orr with
  | none, _ => np
  | some _, none => np
  | some g, some r => if np ∈ g then (if cntD c np > cntD c r then np else r) else r

theorem cnt_bump (m : List (String × Nat)) (np v : String) :
    cntD (bumpCount m np) v = if v = np then cntD m np + 1 else cntD m v := by
  unfold bumpCount cntD
  by_cases hv : v = np
  · subst hv
    cases h : lookupA m v with
    | none => simp [h, lookupA_setA_eq]
    | some c => simp [h, lookupA_setA_eq]
  · cases h : lookupA m np with
    | none => simp [hv, lookupA_setA_ne _ _ _ _ hv]
    | some c => simp [hv, lookupA_setA_ne _ _ _ _ hv]

theorem lookupA_bump_eq (m : List (String × Nat)) (np : String) :
    lookupA (bumpCount m np) np = some (cntD m np + 1) := by
  unfold bumpCount cntD
  cases h : lookupA m np with
  | none => simp [h, lookupA_setA_eq]
  | some c => simp [h, lookupA_setA_eq]

theorem lookupA_bump_ne (m : List (String × Nat)) (np v : String) (h : v ≠ np) :
    lookupA (bumpCount m np) v = lookupA m v := by
  unfold bumpCount
  cases hc : lookupA m np <;> simp [lookupA_setA_ne _ _ _ _ h]

theorem occ_np2count (mark : String) (nz : String → String → String)
    (st : GroupState) (np lem : String) :
    (processOccurrence mark nz st np lem).1.np2count = bumpCount st.np2count np := by
  unfold processOccurrence
  cases hg : lookupA st.id2group (substMark mark (nz np lem)) with
  | none => simp [hg]
  | some g =>
    simp only [hg]
    by_cases hm : np ∈ g
    · simp only [hm, not_true_eq_false, if_false]
      split <;> rfl
    · simp [hm]

theorem occ_np2id (mark : String) (nz : String → String → String)
    (st : GroupState) (np lem : String) (q : String) :
    lookupA (processOccurrence mark nz st np lem).1.np2id q =
      if q = np then some (normOf mark nz np lem) else lookupA st.np2id q := by
  have key : (processOccurrence mark nz st np lem).1.np2id =
      setA st.np2id np (substMark mark (nz np lem)) := by
    unfold processOccurrence
    cases hg : lookupA st.id2group (substMark mark (nz np lem)) with
    | none => simp [hg]
    | some g =>
      simp only [hg]
      by_cases hm : np ∈ g
      · simp only [hm, not_true_eq_false, if_false]
        split <;> rfl
      · simp [hm]
  unfold normOf
  rw [key]
  by_cases hq : q = np
  · subst hq
    simp [lookupA_setA_eq]
  · simp [hq, lookupA_setA_ne _ _ _ _ hq]

theorem occ_out (mark : String) (nz : String → String → String)
    (st : GroupState) (np lem : String) :
    (processOccurrence mark nz st np lem).2 = emitKey mark (normOf mark nz np lem) := by
  unfold processOccurrence normOf
  cases hg : lookupA st.id2group (substMark mark (nz np lem)) with
  | none => simp [hg]
  | some g =>
    simp only [hg]
    by_cases hm : np ∈ g
    · simp only [hm, not_true_eq_false, if_false]
      split <;> rfl
    · simp [hm]

theorem occ_group (mark : String) (nz : String → String → String)
    (st : GroupState) (np lem : String) (q : String) :
    lookupA (processOccurrence mark nz st np lem).1.id2group q =
      if q = normOf mark nz np lem then
        some (groupNew (lookupA st.id2group (normOf mark nz np lem)) np)
      else lookupA st.id2group q := by
  have hfield : (processOccurrence mark nz st np lem).1.id2group =
      (match lookupA st.id2group (substMark mark (nz np lem)) with
       | none => setA st.id2group (substMark mark (nz np lem)) [np]
       | some g =>
         if np ∈ g then st.id2group
         else setA st.id2group (substMark mark (nz np lem)) (g ++ [np])) := by
    unfold processOccurrence
    cases hg : lookupA st.id2group (substMark mark (nz np lem)) with
    | none => simp [hg]
    | some g =>
      simp only [hg]
      by_cases hm : np ∈ g
      · simp only [hm, not_true_eq_false, if_false, if_true]
        split <;> rfl
      · simp [hm]
  rw [hfield]
  unfold normOf groupNew
  cases hg : lookupA st.id2group (substMark mark (nz np lem)) with
  | none =>
    simp only
    by_cases hq : q = substMark mark (nz np lem)
    · subst hq
      simp [lookupA_setA_eq]
    · simp [hq, lookupA_setA_ne _ _ _ _ hq]
  | some g =>
    simp only
    by_cases hm : np ∈ g
    · simp only [hm, if_true]
      by_cases hq : q = substMark mark (nz np lem)
      · subst hq
        simp [hg]
      · simp [hq]
    · simp only [hm, if_false]
      by_cases hq : q = substMark mark (nz np lem)
      · subst hq
        simp [lookupA_setA_eq]
      · simp [hq, lookupA_setA_ne _ _ _ _ hq]

theorem occ_rep (mark : String) (nz : String → String → String)
    (st : GroupState) (np lem : String) (q : String) :
    lookupA (processOccurrence mark nz st np lem).1.id2rep q =
      if q = normOf mark nz np lem then
        some (repNew (lookupA st.id2group (normOf mark nz np lem))
          (lookupA st.id2rep (normOf mark nz np lem)) (bumpCount st.np2count np) np)
      else lookupA st.id2rep q := by
  unfold processOccurrence normOf repNew
  cases hg : lookupA st.id2group (substMark mark (nz np lem)) with
  | none =>
    cases hr : lookupA st.id2rep (substMark mark (nz np lem)) with
    | none =>
      simp only [hg, hr]
      by_cases hq : q = substMark mark (nz np lem)
      · subst hq
        simp [lookupA_setA_eq]
      · simp [hq, lookupA_setA_ne _ _ _ _ hq]
    | some r =>
      simp only [hg, hr]
      by_cases hq : q = substMark mark (nz np lem)
      · subst hq
        simp [lookupA_setA_eq]
      · simp [hq, lookupA_setA_ne _ _ _ _ hq]
  | some g =>
    cases hr : lookupA st.id2rep (substMark mark (nz np lem)) with
    | none =>
      simp only [hg, hr]
      by_cases hm : np ∈ g
      · simp only [hm, not_true_eq_false, if_false, if_true, lookupA_setA_eq,
          Option.getD_some, lt_irrefl]
        by_cases hq : q = substMark mark (nz np lem)
        · subst hq
          simp [lookupA_setA_eq]
        · simp [hq, lookupA_setA_ne _ _ _ _ hq]
      · simp only [hm, not_false_eq_true, if_true, if_false]
        by_cases hq : q = substMark mark (nz np lem)
        · subst hq
          simp [lookupA_setA_eq]
        · simp [hq, lookupA_setA_ne _ _ _ _ hq]
    | some r =>
      simp only [hg, hr]
      by_cases hm : np ∈ g
      · simp only [hm, not_true_eq_false, if_false, if_true, Option.getD_some]
        by_cases hc : cntD (bumpCount st.np2count np) np > cntD (bumpCount st.np2count np) r
        · simp only [hc, if_true]
          by_cases hq : q = substMark mark (nz np lem)
          · subst hq
            simp [lookupA_setA_eq]
          · simp [hq, lookupA_setA_ne _ _ _ _ hq]
        · simp only [hc, if_false]
          by_cases hq : q = substMark mark (nz np lem)
          · subst hq
            simp [hr]
          · simp [hq]
      · simp only [hm, not_false_eq_true, if_true, if_false]
        by_cases hq : q = substMark mark (nz np lem)
        · subst hq
          simp [hr]
        · simp [hq]

/-! ### Replacement and containment lemmas for Python string primitives -/

theorem replaceAux_single (p : Char) (rep : List Char) :
    ∀ (s : List Char) (fuel : Nat), s.length ≤ fuel →
      replaceAux [p] rep fuel s = expandChars (fun c => if c = p then rep else [c]) s := by
  intro s
  induction s with
  | nil =>
    intro fuel _
    cases fuel <;> simp [replaceAux, expandChars]
  | cons c cs ih =>
    intro fuel hfuel
    cases fuel with
    | zero => simp at hfuel
    | succ f =>
      have hcs : cs.length ≤ f := by
        simpa [Nat.succ_le_succ_iff] using hfuel
      by_cases hc : p = c
      · subst hc
        simp [replaceAux, List.isPrefixOf, expandChars, ih f hcs]
      · simp [replaceAux, List.isPrefixOf, hc, expandChars, Ne.symm hc, ih f hcs]

/-- Python `s.replace(' ', rep)` replaces exactly the individual space
characters. -/
theorem pyReplace_space (s m : String) :
    pyReplace s " " m = ⟨expandChars (fun c => if c = ' ' then m.data else [c]) s.data⟩ := by
  unfold pyReplace
  have : (" " : String).data = [' '] := rfl
  rw [this, replaceAux_single ' ' m.data s.data s.data.length (le_refl _)]

theorem expandChars_length_ge (f : Char → List Char) (h : ∀ c, 1 ≤ (f c).length)
    (l : List Char) : l.length ≤ (expandChars f l).length := by
  induction l with
  | nil => simp [expandChars]
  | cons c cs ih =>
    simp only [expandChars, List.length_append, List.length_cons]
    have := h c
    omega

theorem expandChars_not_mem (f : Char → List Char) (c : Char)
    (h : ∀ x, c ∉ f x) (l : List Char) : c ∉ expandChars f l := by
  induction l with
  | nil => simp [expandChars]
  | cons x xs ih =>
    simp only [expandChars, List.mem_append]
    rintro (hx | hxs)
    · exact h x hx
    · exact ih hxs

theorem containsList_single (l : List Char) (c : Char) :
    containsList l [c] = true ↔ c ∈ l := by
  induction l with
  | nil => simp [containsList, List.isPrefixOf]
  | cons x xs ih =>
    simp only [containsList, List.isPrefixOf, Bool.or_eq_true, Bool.and_eq_true, ih,
      List.mem_cons]
    constructor
    · rintro (⟨h1, _⟩ | h2)
      · left
        exact beq_iff_eq.mp h1
      · right
        exact h2
    · rintro (h1 | h2)
      · left
        exact ⟨beq_iff_eq.mpr h1, by simp [List.isPrefixOf]⟩
      · right
        exact h2

theorem strLengthPos (s : String) (h : s ≠ "") : 0 < s.length := by
  cases s with
  | mk data =>
    cases data with
    | nil => exact absurd rfl h
    | cons c cs => simp [String.length]

theorem strLength_data (s : String) : s.length = s.data.length := rfl

theorem strAppend_data (s t : String) : (s ++ t).data = s.data ++ t.data := rfl

/-! ### The representative invariant of the grouping tables -/

theorem np_mem_groupNew (og : Option (List String)) (np : String) :
    np ∈ groupNew og np := by
  cases og with
  | none => simp [groupNew]
  | some g =>
    by_cases hm : np ∈ g
    · simp [groupNew, hm]
    · simp [groupNew, hm]

theorem mem_groupNew_of_mem {og : Option (List String)} {g : List String}
    {v np : String} (hog : og = some g) (h : v ∈ g) : v ∈ groupNew og np := by
  subst hog
  by_cases hm : np ∈ g
  · simpa [groupNew, hm] using h
  · simp [groupNew, hm, h]

theorem mem_groupNew {og : Option (List String)} {np v : String}
    (h : v ∈ groupNew og np) : v = np ∨ ∃ g, og = some g ∧ v ∈ g := by
  cases og with
  | none =>
    simp [groupNew] at h
    exact Or.inl h
  | some g =>
    by_cases hm : np ∈ g
    · rw [show groupNew (some g) np = g by simp [groupNew, hm]] at h
      exact Or.inr ⟨g, rfl, h⟩
    · rw [show groupNew (some g) np = g ++ [np] by simp [groupNew, hm]] at h
      rcases List.mem_append.mp h with h1 | h2
      · exact Or.inr ⟨g, rfl, h1⟩
      · simp at h2
        exact Or.inl h2

/-- Invariant of the grouping tables, under the assumption that every
occurrence of a phrase yields the normalized key `keyOf` of its text:
(1) `id2group` and `id2rep` have the same keys; (2) members of a group carry
that key and have a positive count; (3) the representative of a key is a
member of its group and maximizes `np2count` over the group; (4) a phrase
with positive count is a member of its key's group. -/
def GroupInv (keyOf : String → String) (s : GroupState) : Prop :=
  (∀ k, (lookupA s.id2group k).isSome ↔ (lookupA s.id2rep k).isSome) ∧
  (∀ k g, lookupA s.id2group k = some g →
    ∀ v ∈ g, keyOf v = k ∧ 0 < cntD s.np2count v) ∧
  (∀ k g, lookupA s.id2group k = some g →
    ∃ r, lookupA s.id2rep k = some r ∧ r ∈ g ∧
      ∀ v ∈ g, cntD s.np2count v ≤ cntD s.np2count r) ∧
  (∀ v, 0 < cntD s.np2count v → ∃ g, lookupA s.id2group (keyOf v) = some g ∧ v ∈ g)

theorem inv_empty (keyOf : String → String) : GroupInv keyOf emptyGroupState := by
  refine ⟨?_, ?_, ?_, ?_⟩ <;> simp [emptyGroupState, lookupA, cntD]

theorem inv_occ (keyOf : String → String) (mark : String)
    (nz : String → String → String) (st : GroupState) (np lem : String)
    (hk : normOf mark nz np lem = keyOf np) (hInv : GroupInv keyOf st) :
    GroupInv keyOf (processOccurrence mark nz st np lem).1 := by
  obtain ⟨hIff, hMem, hRep, hCnt⟩ := hInv
  have hgrp : ∀ q, lookupA (processOccurrence mark nz st np lem).1.id2group q =
      if q = keyOf np then some (groupNew (lookupA st.id2group (keyOf np)) np)
      else lookupA st.id2group q := by
    intro q
    rw [occ_group, hk]
  have hrep : ∀ q, lookupA (processOccurrence mark nz st np lem).1.id2rep q =
      if q = keyOf np then
        some (repNew (lookupA st.id2group (keyOf np)) (lookupA st.id2rep (keyOf np))
          (bumpCount st.np2count np) np)
      else lookupA st.id2rep q := by
    intro q
    rw [occ_rep, hk]
  have hcnt : ∀ v, cntD (processOccurrence mark nz st np lem).1.np2count v =
      if v = np then cntD st.np2count np + 1 else cntD st.np2count v := by
    intro v
    rw [occ_np2count, cnt_bump]
  have hcnt_mono : ∀ v, cntD st.np2count v ≤
      cntD (processOccurrence mark nz st np lem).1.np2count v := by
    intro v
    rw [hcnt v]
    by_cases hv : v = np
    · subst hv
      rw [if_pos rfl]
      omega
    · rw [if_neg hv]
  have hfresh : ∀ g0, lookupA st.id2group (keyOf np) = some g0 → np ∉ g0 →
      cntD st.np2count np = 0 := by
    intro g0 hg0 hnp
    by_contra h
    obtain ⟨g1, hg1, hmem1⟩ := hCnt np (Nat.pos_of_ne_zero h)
    rw [hg0] at hg1
    injection hg1 with he
    subst he
    exact hnp hmem1
  refine ⟨?_, ?_, ?_, ?_⟩
  · intro k
    rw [hgrp k, hrep k]
    by_cases hq : k = keyOf np
    · rw [if_pos hq, if_pos hq]
      simp
    · rw [if_neg hq, if_neg hq]
      exact hIff k
  · intro k g hg v hv
    rw [hcnt v]
    rw [hgrp k] at hg
    by_cases hq : k = keyOf np
    · rw [if_pos hq] at hg
      injection hg with he
      subst he
      rcases mem_groupNew hv with rfl | ⟨g0, hG0, hvg0⟩
      · rw [if_pos rfl]
        exact ⟨hq.symm, by omega⟩
      · have h2 := hMem (keyOf np) g0 hG0 v hvg0
        refine ⟨by rw [hq]; exact h2.1, ?_⟩
        by_cases hvnp : v = np
        · rw [if_pos hvnp]
          omega
        · rw [if_neg hvnp]
          exact h2.2
    · rw [if_neg hq] at hg
      have h2 := hMem k g hg v hv
      refine ⟨h2.1, ?_⟩
      by_cases hvnp : v = np
      · rw [if_pos hvnp]
        omega
      · rw [if_neg hvnp]
        exact h2.2
  · intro k g hg
    rw [hgrp k] at hg
    by_cases hq : k = keyOf np
    · subst hq
      rw [if_pos rfl] at hg
      injection hg with he
      subst he
      rw [hrep (keyOf np), if_pos rfl]
      cases hG : lookupA st.id2group (keyOf np) with
      | none =>
        refine ⟨np, rfl, np_mem_groupNew _ _, ?_⟩
        intro v hv
        have hvnp : v = np := by simpa [groupNew] using hv
        subst hvnp
        exact le_refl _
      | some g0 =>
        have hRs : (lookupA st.id2rep (keyOf np)).isSome := by
          rw [← hIff (keyOf np), hG]
          rfl
        obtain ⟨r0, hr0⟩ := Option.isSome_iff_exists.mp hRs
        obtain ⟨r1, hr1, hr1mem, hr1max⟩ := hRep (keyOf np) g0 hG
        rw [hr0] at hr1
        injection hr1 with he1
        subst he1
        rw [hr0]
        by_cases hm : np ∈ g0
        · have hgn : groupNew (some g0) np = g0 := by simp [groupNew, hm]
          by_cases hc : cntD (bumpCount st.np2count np) r0 <
              cntD (bumpCount st.np2count np) np
          · have hr0ne : r0 ≠ np := by
              intro he
              rw [he] at hc
              exact absurd hc (lt_irrefl _)
            have hrn : repNew (some g0) (some r0) (bumpCount st.np2count np) np = np := by
              simp [repNew, hm, hc]
            rw [hgn, hrn]
            refine ⟨np, rfl, hm, ?_⟩
            intro v hv
            by_cases hvnp : v = np
            · subst hvnp
              exact le_refl _
            · have d1 : cntD (bumpCount st.np2count np) r0 = cntD st.np2count r0 := by
                rw [cnt_bump, if_neg hr0ne]
              have d2 : cntD (bumpCount st.np2count np) np = cntD st.np2count np + 1 := by
                rw [cnt_bump, if_pos rfl]
              have d3 := hr1max v hv
              rw [hcnt v, if_neg hvnp, hcnt np, if_pos rfl]
              omega
          · have hrn : repNew (some g0) (some r0) (bumpCount st.np2count np) np = r0 := by
              simp [repNew, hm, hc]
            rw [hgn, hrn]
            refine ⟨r0, rfl, hr1mem, ?_⟩
            intro v hv
            by_cases hvnp : v = np
            · rw [hcnt v, if_pos hvnp, hcnt r0]
              by_cases hr0np : r0 = np
              · rw [if_pos hr0np]
              · rw [if_neg hr0np]
                have d1 : cntD (bumpCount st.np2count np) r0 = cntD st.np2count r0 := by
                  rw [cnt_bump, if_neg hr0np]
                have d2 : cntD (bumpCount st.np2count np) np = cntD st.np2count np + 1 := by
                  rw [cnt_bump, if_pos rfl]
                omega
            · rw [hcnt v, if_neg hvnp, hcnt r0]
              have d3 := hr1max v hv
              by_cases hr0np : r0 = np
              · rw [if_pos hr0np]
                rw [hr0np] at d3
                omega
              · rw [if_neg hr0np]
                exact d3
        · have hgn : groupNew (some g0) np = g0 ++ [np] := by simp [groupNew, hm]
          have hrn : repNew (some g0) (some r0) (bumpCount st.np2count np) np = r0 := by
            simp [repNew, hm]
          rw [hgn, hrn]
          have hr0ne : r0 ≠ np := by
            intro he
            rw [he] at hr1mem
            exact hm hr1mem
          refine ⟨r0, rfl, List.mem_append.mpr (Or.inl hr1mem), ?_⟩
          intro v hv
          rcases List.mem_append.mp hv with hv0 | hvnp
          · have hvne : v ≠ np := by
              intro he
              rw [he] at hv0
              exact hm hv0
            rw [hcnt v, if_neg hvne, hcnt r0, if_neg hr0ne]
            exact hr1max v hv0
          · have hvnp2 : v = np := by simpa using hvnp
            have h0 : cntD st.np2count np = 0 := hfresh g0 hG hm
            have hpos : 0 < cntD st.np2count r0 := (hMem (keyOf np) g0 hG r0 hr1mem).2
            rw [hcnt v, if_pos hvnp2, hcnt r0, if_neg hr0ne]
            omega
    · rw [if_neg hq] at hg
      obtain ⟨r, hr, hrmem, hrmax⟩ := hRep k g hg
      refine ⟨r, ?_, hrmem, ?_⟩
      · rw [hrep k, if_neg hq]
        exact hr
      · intro v hv
        have hvne : v ≠ np := by
          intro he
          subst he
          exact hq ((hMem k g hg v hv).1 ▸ rfl)
        have hrne : r ≠ np := by
          intro he
          subst he
          exact hq ((hMem k g hg r hrmem).1 ▸ rfl)
        rw [hcnt v, if_neg hvne, hcnt r, if_neg hrne]
        exact hrmax v hv
  · intro v hv
    by_cases hvnp : v = np
    · subst hvnp
      refine ⟨groupNew (lookupA st.id2group (keyOf v)) v, ?_, np_mem_groupNew _ _⟩
      rw [hgrp (keyOf v), if_pos rfl]
    · rw [hcnt v, if_neg hvnp] at hv
      obtain ⟨g1, hg1, hmem1⟩ := hCnt v hv
      by_cases hq : keyOf v = keyOf np
      · refine ⟨groupNew (lookupA st.id2group (keyOf np)) np, ?_, ?_⟩
        · rw [hgrp (keyOf v), if_pos hq]
        · rw [hq] at hg1
          exact mem_groupNew_of_mem hg1 hmem1
      · refine ⟨g1, ?_, hmem1⟩
        rw [hgrp (keyOf v), if_neg hq]
        exact hg1

/-- The grouping tables after one token are either unchanged or the result of
one grouping-block execution on the active span. -/
theorem token_g_cases (cfg : LineCfg) (st : MarkState) (tok : Token) :
    (processToken cfg st tok).1.g = st.g ∨
    ∃ sp, st.span = some sp ∧
      (processToken cfg st tok).1.g =
        (processOccurrence cfg.mark_char cfg.normalize st.g sp.text sp.lemma_).1 := by
  unfold processToken
  cases hsp : st.span with
  | none => exact Or.inl rfl
  | some sp =>
    dsimp only
    by_cases hout : tok.idx < sp.start_char ∨ tok.idx ≥ sp.end_char
    · rw [if_pos hout]
      exact Or.inl rfl
    · rw [if_neg hout]
      cases hw : st.spanWritten with
      | true =>
        simp only [Bool.not_true]
        left
        split
        · split <;> rfl
        · rfl
      | false =>
        simp only [Bool.not_false, if_true]
        by_cases hacc : sp.text.length > 1 ∧ sp.lemma_ ≠ "-PRON-"
        · rw [if_pos hacc]
          cases hgr : cfg.grouping with
          | false =>
            simp only [Bool.false_eq_true, if_false]
            left
            split
            · split <;> rfl
            · rfl
          | true =>
            simp only [if_true]
            right
            refine ⟨sp, rfl, ?_⟩
            rcases hoc : processOccurrence cfg.mark_char cfg.normalize st.g sp.text sp.lemma_
              with ⟨go, t2⟩
            simp only [hoc]
            split
            · split <;> rfl
            · rfl
        · rw [if_neg hacc]
          left
          split
          · split <;> rfl
          · rfl

theorem inv_token (keyOf : String → String) (cfg : LineCfg) (st : MarkState) (tok : Token)
    (hk : ∀ np lem, normOf cfg.mark_char cfg.normalize np lem = keyOf np)
    (hInv : GroupInv keyOf st.g) : GroupInv keyOf (processToken cfg st tok).1.g := by
  rcases token_g_cases cfg st tok with h | ⟨sp, _, h⟩
  · rw [h]
    exact hInv
  · rw [h]
    exact inv_occ keyOf _ _ _ _ _ (hk _ _) hInv

theorem inv_tokens (keyOf : String → String) (cfg : LineCfg)
    (hk : ∀ np lem, normOf cfg.mark_char cfg.normalize np lem = keyOf np)
    (toks : List Token) : ∀ st : MarkState, GroupInv keyOf st.g →
      GroupInv keyOf (processTokens cfg st toks).1.g := by
  induction toks with
  | nil =>
    intro st hInv
    exact hInv
  | cons t ts ih =>
    intro st hInv
    have h1 := inv_token keyOf cfg st t hk hInv
    rcases h : processToken cfg st t with ⟨st1, o1⟩
    rw [h] at h1
    have h2 := ih st1 h1
    rcases h3 : processTokens cfg st1 ts with ⟨st2, o2⟩
    rw [h3] at h2
    simp only [processTokens, h, h3]
    exact h2

theorem inv_line (keyOf : String → String) (cfg : LineCfg)
    (hk : ∀ np lem, normOf cfg.mark_char cfg.normalize np lem = keyOf np)
    (g : GroupState) (toks : List Token) (spans : List Span)
    (hInv : GroupInv keyOf g) : GroupInv keyOf (processLine cfg g toks spans).1 := by
  unfold processLine
  cases spans with
  | nil =>
    have hI := inv_tokens keyOf cfg hk toks ⟨[], none, false, g⟩ hInv
    dsimp only
    rcases h : processTokens cfg ⟨[], none, false, g⟩ toks with ⟨st1, o1⟩
    rw [h] at hI
    exact hI
  | cons s r =>
    have hI := inv_tokens keyOf cfg hk toks ⟨r, some s, false, g⟩ hInv
    dsimp only
    rcases h : processTokens cfg ⟨r, some s, false, g⟩ toks with ⟨st1, o1⟩
    rw [h] at hI
    exact hI

theorem inv_corpus (keyOf : String → String) (cfg : LineCfg)
    (hk : ∀ np lem, normOf cfg.mark_char cfg.normalize np lem = keyOf np)
    (lines : List (List Token × List Span)) : ∀ g : GroupState, GroupInv keyOf g →
      GroupInv keyOf (processCorpus cfg g lines).1 := by
  induction lines with
  | nil =>
    intro g hInv
    exact hInv
  | cons l rest ih =>
    intro g hInv
    obtain ⟨toks, spans⟩ := l
    have h1 := inv_line keyOf cfg hk g toks spans hInv
    rcases h : processLine cfg g toks spans with ⟨g1, o1⟩
    rw [h] at h1
    have h2 := ih g1 h1
    rcases h3 : processCorpus cfg g1 rest with ⟨g2, o2⟩
    rw [h3] at h2
    simp only [processCorpus, h, h3]
    exact h2

/-! ### Two-variant occurrence streams (for Example 2 of the spec) -/

/-- A stream of accepted span occurrences drawn from two variants:
`true` stands for an occurrence of `(B, lemB)`, `false` for `(A, lemA)`. -/
def streamOccs (A B lemA lemB : String) (l : List Bool) : List (String × String) :=
  l.map (fun b => if b then (B, lemB) else (A, lemA))

theorem occ_cnt (mark : String) (nz : String → String → String)
    (st : GroupState) (np lem v : String) :
    cntD (processOccurrence mark nz st np lem).1.np2count v =
      if v = np then cntD st.np2count np + 1 else cntD st.np2count v := by
  rw [occ_np2count, cnt_bump]

theorem occ_group_k {mark k : String} {nz : String → String → String}
    {np lem : String} (hX : normOf mark nz np lem = k) (st : GroupState) :
    lookupA (processOccurrence mark nz st np lem).1.id2group k =
      some (groupNew (lookupA st.id2group k) np) := by
  rw [occ_group, hX, if_pos rfl]

theorem occ_rep_k {mark k : String} {nz : String → String → String}
    {np lem : String} (hX : normOf mark nz np lem = k) (st : GroupState) :
    lookupA (processOccurrence mark nz st np lem).1.id2rep k =
      some (repNew (lookupA st.id2group k) (lookupA st.id2rep k)
        (bumpCount st.np2count np) np) := by
  rw [occ_rep, hX, if_pos rfl]

theorem foldOccs_append (mark : String) (nz : String → String → String)
    (st : GroupState) (x y : List (String × String)) :
    foldOccs mark nz st (x ++ y) = foldOccs mark nz (foldOccs mark nz st x) y := by
  unfold foldOccs
  exact List.foldl_append _ _ _ _

theorem bool_all_false_of_count (l : List Bool) (h : l.count true = 0) :
    ∀ x ∈ l, x = false := by
  intro x hx
  cases x with
  | false => rfl
  | true =>
    exfalso
    have : 0 < l.count true := List.count_pos_iff.mpr hx
    omega

theorem bool_list_nil_of_counts (l : List Bool) (h1 : l.count true = 0)
    (h2 : l.count false = 0) : l = [] := by
  cases l with
  | nil => rfl
  | cons x xs =>
    exfalso
    cases x with
    | true =>
      have : 0 < (true :: xs).count true := List.count_pos_iff.mpr (by simp)
      omega
    | false =>
      have : 0 < (false :: xs).count false := List.count_pos_iff.mpr (by simp)
      omega

theorem stream_cnt (mark : String) (nz : String → String → String)
    (A B lemA lemB : String) (hAB : A ≠ B) (l : List Bool) :
    ∀ st : GroupState,
      cntD (foldOccs mark nz st (streamOccs A B lemA lemB l)).np2count B =
        cntD st.np2count B + l.count true ∧
      cntD (foldOccs mark nz st (streamOccs A B lemA lemB l)).np2count A =
        cntD st.np2count A + l.count false := by
  induction l with
  | nil =>
    intro st
    simp [streamOccs, foldOccs]
  | cons b l' ih =>
    intro st
    cases b with
    | true =>
      have step : foldOccs mark nz st (streamOccs A B lemA lemB (true :: l')) =
          foldOccs mark nz (processOccurrence mark nz st B lemB).1
            (streamOccs A B lemA lemB l') := by
        simp [streamOccs, foldOccs]
      rw [step]
      obtain ⟨ihB, ihA⟩ := ih (processOccurrence mark nz st B lemB).1
      rw [ihB, ihA, occ_cnt, occ_cnt, if_pos rfl, if_neg hAB]
      constructor
      · simp [List.count_cons]
        omega
      · simp [List.count_cons]
    | false =>
      have step : foldOccs mark nz st (streamOccs A B lemA lemB (false :: l')) =
          foldOccs mark nz (processOccurrence mark nz st A lemA).1
            (streamOccs A B lemA lemB l') := by
        simp [streamOccs, foldOccs]
      rw [step]
      obtain ⟨ihB, ihA⟩ := ih (processOccurrence mark nz st A lemA).1
      rw [ihB, ihA, occ_cnt, occ_cnt, if_pos rfl, if_neg (Ne.symm hAB)]
      constructor
      · simp [List.count_cons]
      · simp [List.count_cons]
        omega

theorem stream_group_some {mark k : String} {nz : String → String → String}
    {A B lemA lemB : String}
    (hA : normOf mark nz A lemA = k) (hB : normOf mark nz B lemB = k)
    (l : List Bool) :
    ∀ st : GroupState, (l ≠ [] ∨ (lookupA st.id2group k).isSome) →
      (lookupA (foldOccs mark nz st (streamOccs A B lemA lemB l)).id2group k).isSome := by
  induction l with
  | nil =>
    intro st h
    rcases h with h | h
    · exact absurd rfl h
    · simpa [streamOccs, foldOccs] using h
  | cons b l' ih =>
    intro st _
    cases b with
    | true =>
      have step : foldOccs mark nz st (streamOccs A B lemA lemB (true :: l')) =
          foldOccs mark nz (processOccurrence mark nz st B lemB).1
            (streamOccs A B lemA lemB l') := by
        simp [streamOccs, foldOccs]
      rw [step]
      apply ih
      right
      rw [occ_group_k hB]
      rfl
    | false =>
      have step : foldOccs mark nz st (streamOccs A B lemA lemB (false :: l')) =
          foldOccs mark nz (processOccurrence mark nz st A lemA).1
            (streamOccs A B lemA lemB l') := by
        simp [streamOccs, foldOccs]
      rw [step]
      apply ih
      right
      rw [occ_group_k hA]
      rfl

/-- Invariant of a two-variant stream at key `k`: the representative entry
exists once the group does, is one of the two variants, and each variant with
positive count is in the group. -/
def StreamInv (A B k : String) (s : GroupState) : Prop :=
  ((lookupA s.id2group k).isSome → (lookupA s.id2rep k).isSome) ∧
  (∀ r, lookupA s.id2rep k = some r → r = A ∨ r = B) ∧
  (0 < cntD s.np2count A → ∃ g, lookupA s.id2group k = some g ∧ A ∈ g) ∧
  (0 < cntD s.np2count B → ∃ g, lookupA s.id2group k = some g ∧ B ∈ g)

theorem streamInv_empty (A B k : String) : StreamInv A B k emptyGroupState := by
  refine ⟨?_, ?_, ?_, ?_⟩ <;> simp [emptyGroupState, lookupA, cntD]

theorem repNew_cases (og : Option (List String)) (orr : Option String)
    (c : List (String × Nat)) (np : String) :
    repNew og orr c np = np ∨ ∃ r, orr = some r ∧ repNew og orr c np = r := by
  cases og with
  | none => exact Or.inl rfl
  | some g =>
    cases orr with
    | none => exact Or.inl rfl
    | some r =>
      by_cases hm : np ∈ g
      · by_cases hc : cntD c r < cntD c np
        · left
          simp [repNew, hm, hc]
        · right
          exact ⟨r, rfl, by simp [repNew, hm, hc]⟩
      · right
        exact ⟨r, rfl, by simp [repNew, hm]⟩

theorem streamInv_step {mark k : String} {nz : String → String → String}
    {A B : String} {np lem : String}
    (hX : normOf mark nz np lem = k) (hnp : np = A ∨ np = B)
    (st : GroupState) (hS : StreamInv A B k st) :
    StreamInv A B k (processOccurrence mark nz st np lem).1 := by
  obtain ⟨hS1, hS2, hS3, hS4⟩ := hS
  refine ⟨?_, ?_, ?_, ?_⟩
  · intro _
    rw [occ_rep_k hX]
    rfl
  · intro r hr
    rw [occ_rep_k hX] at hr
    injection hr with hr
    rcases repNew_cases (lookupA st.id2group k) (lookupA st.id2rep k)
        (bumpCount st.np2count np) np with h | ⟨r0, hr0, h⟩
    · rw [h] at hr
      rw [← hr]
      exact hnp
    · rw [h] at hr
      rw [← hr]
      exact hS2 r0 hr0
  · intro hpos
    rw [occ_group_k hX]
    by_cases hA : A = np
    · exact ⟨_, rfl, hA ▸ np_mem_groupNew _ _⟩
    · rw [occ_cnt, if_neg hA] at hpos
      obtain ⟨g, hg, hmem⟩ := hS3 hpos
      exact ⟨_, rfl, mem_groupNew_of_mem hg hmem⟩
  · intro hpos
    rw [occ_group_k hX]
    by_cases hB : B = np
    · exact ⟨_, rfl, hB ▸ np_mem_groupNew _ _⟩
    · rw [occ_cnt, if_neg hB] at hpos
      obtain ⟨g, hg, hmem⟩ := hS4 hpos
      exact ⟨_, rfl, mem_groupNew_of_mem hg hmem⟩

theorem streamInv_fold {mark k : String} {nz : String → String → String}
    {A B lemA lemB : String}
    (hA : normOf mark nz A lemA = k) (hB : normOf mark nz B lemB = k)
    (l : List Bool) :
    ∀ st : GroupState, StreamInv A B k st →
      StreamInv A B k (foldOccs mark nz st (streamOccs A B lemA lemB l)) := by
  induction l with
  | nil =>
    intro st h
    simpa [streamOccs, foldOccs] using h
  | cons b l' ih =>
    intro st h
    cases b with
    | true =>
      have step : foldOccs mark nz st (streamOccs A B lemA lemB (true :: l')) =
          foldOccs mark nz (processOccurrence mark nz st B lemB).1
            (streamOccs A B lemA lemB l') := by
        simp [streamOccs, foldOccs]
      rw [step]
      exact ih _ (streamInv_step hB (Or.inr rfl) st h)
    | false =>
      have step : foldOccs mark nz st (streamOccs A B lemA lemB (false :: l')) =
          foldOccs mark nz (processOccurrence mark nz st A lemA).1
            (streamOccs A B lemA lemB l') := by
        simp [streamOccs, foldOccs]
      rw [step]
      exact ih _ (streamInv_step hA (Or.inl rfl) st h)

/-- Once `B` is the representative of `k` with a count that the other
variant `A` cannot reach in the remaining (all-`A`) stream, it stays the
representative. -/
theorem repStable {mark k : String} {nz : String → String → String}
    {A B lemA lemB : String} (hAB : A ≠ B)
    (hA : normOf mark nz A lemA = k) (l2 : List Bool)
    (hall : ∀ x ∈ l2, x = false) :
    ∀ (st : GroupState) (mB : Nat),
      lookupA st.id2rep k = some B →
      (lookupA st.id2group k).isSome →
      cntD st.np2count B = mB →
      cntD st.np2count A + l2.length < mB →
      lookupA (foldOccs mark nz st (streamOccs A B lemA lemB l2)).id2rep k = some B := by
  induction l2 with
  | nil =>
    intro st mB hrep _ _ _
    simpa [streamOccs, foldOccs] using hrep
  | cons x l2' ih =>
    intro st mB hrep hgs hcntB hbound
    have hx : x = false := hall x (by simp)
    subst hx
    have step : foldOccs mark nz st (streamOccs A B lemA lemB (false :: l2')) =
        foldOccs mark nz (processOccurrence mark nz st A lemA).1
          (streamOccs A B lemA lemB l2') := by
      simp [streamOccs, foldOccs]
    rw [step]
    obtain ⟨g, hg⟩ := Option.isSome_iff_exists.mp hgs
    have hrep' : lookupA (processOccurrence mark nz st A lemA).1.id2rep k = some B := by
      rw [occ_rep_k hA, hg, hrep]
      by_cases hm : A ∈ g
      · have hcA : cntD (bumpCount st.np2count A) A = cntD st.np2count A + 1 := by
          rw [cnt_bump, if_pos rfl]
        have hcB : cntD (bumpCount st.np2count A) B = cntD st.np2count B := by
          rw [cnt_bump, if_neg (Ne.symm hAB)]
        have hnc : ¬ cntD (bumpCount st.np2count A) B < cntD (bumpCount st.np2count A) A := by
          rw [hcA, hcB, hcntB]
          simp only [List.length_cons] at hbound
          omega
        simp [repNew, hm, hnc]
      · simp [repNew, hm]
    apply ih (fun x hx => hall x (by simp [hx])) _ mB hrep'
    · rw [occ_group_k hA]
      rfl
    · rw [occ_cnt, if_neg (Ne.symm hAB), hcntB]
    · rw [occ_cnt, if_pos rfl]
      simp only [List.length_cons] at hbound
      omega

theorem exists_last_true (l : List Bool) (h : 0 < l.count true) :
    ∃ l1 l2, l = l1 ++ true :: l2 ∧ l2.count true = 0 := by
  induction l using List.reverseRecOn with
  | nil => simp at h
  | append_singleton l' x ih =>
    cases x with
    | true => exact ⟨l', [], rfl, rfl⟩
    | false =>
      have h' : 0 < l'.count true := by
        simpa [List.count_append] using h
      obtain ⟨a, b, hab, hb⟩ := ih h'
      refine ⟨a, b ++ [false], by rw [hab]; simp, ?_⟩
      simpa [List.count_append] using hb

theorem bool_count_false_eq_length (l : List Bool) (h : l.count true = 0) :
    l.count false = l.length := by
  induction l with
  | nil => rfl
  | cons x xs ih =>
    cases x with
    | true =>
      exfalso
      have : 0 < (true :: xs).count true := List.count_pos_iff.mpr (by simp)
      omega
    | false =>
      have h' : xs.count true = 0 := by
        simpa [List.count_cons] using h
      simp [List.count_cons, ih h']

/-- If variant `B` occurs strictly more often than variant `A` in a stream of
occurrences that all normalize to the same key `k`, then after the whole
stream `id2rep[k] = B`, whatever the interleaving. -/
theorem rep_majority (mark : String) (nz : String → String → String)
    (A B lemA lemB k : String) (hAB : A ≠ B)
    (hA : normOf mark nz A lemA = k) (hB : normOf mark nz B lemB = k)
    (l : List Bool) (hmaj : l.count false < l.count true) :
    lookupA (foldOccs mark nz emptyGroupState
      (streamOccs A B lemA lemB l)).id2rep k = some B := by
  have hpos : 0 < l.count true := by omega
  obtain ⟨l1, l2, rfl, hl2⟩ := exists_last_true l hpos
  have hm2 : l1.count false + l2.count false < l1.count true + 1 := by
    simpa [List.count_append, List.count_cons, hl2] using hmaj
  have hstream : streamOccs A B lemA lemB (l1 ++ true :: l2) =
      streamOccs A B lemA lemB l1 ++ ((B, lemB) :: streamOccs A B lemA lemB l2) := by
    simp [streamOccs]
  rw [hstream, foldOccs_append]
  set s1 := foldOccs mark nz emptyGroupState (streamOccs A B lemA lemB l1) with hs1
  have hstep : foldOccs mark nz s1 ((B, lemB) :: streamOccs A B lemA lemB l2) =
      foldOccs mark nz (processOccurrence mark nz s1 B lemB).1
        (streamOccs A B lemA lemB l2) := by
    simp [foldOccs]
  rw [hstep]
  have hs1B : cntD s1.np2count B = l1.count true := by
    have h := (stream_cnt mark nz A B lemA lemB hAB l1 emptyGroupState).1
    rw [hs1]
    simpa [emptyGroupState, cntD, lookupA] using h
  have hs1A : cntD s1.np2count A = l1.count false := by
    have h := (stream_cnt mark nz A B lemA lemB hAB l1 emptyGroupState).2
    rw [hs1]
    simpa [emptyGroupState, cntD, lookupA] using h
  have hall2 : ∀ x ∈ l2, x = false := bool_all_false_of_count l2 hl2
  have hlen2 : l2.count false = l2.length := bool_count_false_eq_length l2 hl2
  cases hG : lookupA s1.id2group k with
  | none =>
    have hl1 : l1 = [] := by
      by_contra hne
      have h := stream_group_some hA hB l1 emptyGroupState (Or.inl hne)
      rw [← hs1, hG] at h
      simp at h
    subst hl1
    have hs1e : s1 = emptyGroupState := by
      rw [hs1]
      simp [streamOccs, foldOccs]
    have hrep2 : lookupA (processOccurrence mark nz s1 B lemB).1.id2rep k = some B := by
      rw [occ_rep_k hB, hs1e]
      simp [emptyGroupState, lookupA, repNew]
    have hl2e : l2 = [] := by
      apply bool_list_nil_of_counts l2 hl2
      simp [List.count_cons] at hm2
      omega
    subst hl2e
    simpa [streamOccs, foldOccs] using hrep2
  | some g =>
    obtain ⟨hS1, hS2, hS3, hS4⟩ :=
      streamInv_fold hA hB l1 emptyGroupState (streamInv_empty A B k)
    have hctpos : 0 < l1.count true := by
      by_contra h0
      have hct : l1.count true = 0 := by omega
      have hcf : l1.count false = 0 := by
        have := bool_count_false_eq_length l1 hct
        rcases Nat.eq_zero_or_pos l1.length with hz | hp
        · omega
        · exfalso
          have hl1ne : l1 ≠ [] := by
            intro he
            rw [he] at hp
            simp at hp
          omega
      have hnil : l1 = [] := bool_list_nil_of_counts l1 hct hcf
      subst hnil
      rw [hs1] at hG
      simp [streamOccs, foldOccs, emptyGroupState, lookupA] at hG
    have hBpos : 0 < cntD s1.np2count B := by
      rw [hs1B]
      exact hctpos
    obtain ⟨g', hg', hBg⟩ := hS4 hBpos
    rw [hG] at hg'
    injection hg' with he
    subst he
    have hrs : (lookupA s1.id2rep k).isSome := hS1 (by rw [hG]; rfl)
    obtain ⟨r, hr⟩ := Option.isSome_iff_exists.mp hrs
    have hrAB := hS2 r hr
    have hrep2 : lookupA (processOccurrence mark nz s1 B lemB).1.id2rep k = some B := by
      rw [occ_rep_k hB, hG, hr]
      have hcB : cntD (bumpCount s1.np2count B) B = l1.count true + 1 := by
        rw [cnt_bump, if_pos rfl, hs1B]
      rcases hrAB with rfl | rfl
      · have hcA : cntD (bumpCount s1.np2count B) r = l1.count false := by
          rw [cnt_bump, if_neg hAB, hs1A]
        have hlt : cntD (bumpCount s1.np2count B) r < cntD (bumpCount s1.np2count B) B := by
          rw [hcA, hcB]
          omega
        simp [repNew, hBg, hlt]
      · simp [repNew, hBg]
    have hg2 : (lookupA (processOccurrence mark nz s1 B lemB).1.id2group k).isSome := by
      rw [occ_group_k hB]
      rfl
    have hc2B : cntD (processOccurrence mark nz s1 B lemB).1.np2count B =
        l1.count true + 1 := by
      rw [occ_cnt, if_pos rfl, hs1B]
    have hc2A : cntD (processOccurrence mark nz s1 B lemB).1.np2count A =
        l1.count false := by
      rw [occ_cnt, if_neg hAB, hs1A]
    apply repStable hAB hA l2 hall2 _ (l1.count true + 1) hrep2 hg2 hc2B
    rw [hc2A]
    omega

/-! ### Auxiliary character/list lemmas for the normalizer guard -/

theorem getLast?_mem_aux {α : Type} (l : List α) (a : α) (h : l.getLast? = some a) :
    a ∈ l := by
  induction l with
  | nil => simp at h
  | cons x xs ih =>
    cases xs with
    | nil =>
      simp at h
      simp [h]
    | cons y ys =>
      rw [List.getLast?_cons_cons] at h
      exact List.mem_cons_of_mem x (ih h)

theorem isUpper_not_ws (c : Char) (h : c.isUpper = true) : c.isWhitespace = false := by
  by_contra hws
  have hws' : c.isWhitespace = true := by
    cases hcw : c.isWhitespace
    · exact absurd hcw hws
    · rfl
  have hd : ((c = ' ' ∨ c = '\t') ∨ c = '\r') ∨ c = '\n' := by
    simpa [Char.isWhitespace] using hws'
  rcases hd with ((rfl | rfl) | rfl) | rfl <;> exact absurd h (by decide)

theorem splitWsList_single (l : List Char) (hne : l ≠ [])
    (h : ∀ c ∈ l, c.isWhitespace = false) : splitWsList l = [l] := by
  unfold splitWsList
  cases l with
  | nil => exact absurd rfl hne
  | cons c cs =>
    have htw : cs.takeWhile (fun x => !x.isWhitespace) = cs := by
      rw [List.takeWhile_eq_self_iff]
      intro x hx
      simp [h x (List.mem_cons_of_mem c hx)]
    have hdw : cs.dropWhile (fun x => !x.isWhitespace) = [] := by
      rw [List.dropWhile_eq_nil_iff]
      intro x hx
      simp [h x (List.mem_cons_of_mem c hx)]
    simp only [List.length_cons, splitWsF, h c (by simp), Bool.false_eq_true, if_false,
      htw, hdw]

/-! ### Claim theorems -/

/-- Claim C6: for every phrase that is a single word with no internal
whitespace, entirely upper-case (every character an upper-case letter), and
ending in the plural letter `S`, `spacy_normalizer` returns the phrase
unchanged, for any value of the lemma argument and any stemmer/lemmatizer. -/
theorem c6_allcaps_plural_guard (stem lemmatize : String → String) (text : String)
    (lemma_ : Option String)
    (hupper : ∀ c ∈ text.data, c.isUpper = true)
    (hlast : text.data.getLast? = some 'S') :
    spacy_normalizer stem lemmatize text lemma_ = text := by
  have hne : text.data ≠ [] := by
    intro h
    rw [h] at hlast
    simp at hlast
  have hmemS : 'S' ∈ text.data := getLast?_mem_aux _ _ hlast
  have h1 : pyIsUpper text = true := by
    unfold pyIsUpper
    rw [Bool.and_eq_true]
    constructor
    · rw [List.any_eq_true]
      refine ⟨'S', hmemS, by decide⟩
    · rw [List.all_eq_true]
      intro c hc
      simp [hupper c hc]
  have h2 : pyEndsWithS text = true := by
    unfold pyEndsWithS
    rw [hlast]
    rfl
  have h3 : splitWsList text.data = [text.data] :=
    splitWsList_single text.data hne (fun c hc => isUpper_not_ws c (hupper c hc))
  have hguard : guardSkip text = true := by
    unfold guardSkip
    rw [h1, h2, h3]
    rfl
  unfold spacy_normalizer
  rw [hguard]
  simp

/-- Witness for C6 at a concrete all-caps plural-looking phrase. -/
theorem c6_witness :
    spacy_normalizer (fun s => s ++ "!") (fun s => s) "ABCS" (some "a b") = "ABCS" :=
  c6_allcaps_plural_guard (fun s => s ++ "!") (fun s => s) "ABCS" (some "a b")
    (by decide) (by decide)

/-- Claim C9: when a non-empty lemma is supplied and the all-caps guard does
not fire, the value of `spacy_normalizer` equals the stems of the lemma's
single-space-separated pieces joined by single spaces, and is therefore
independent of the phrase text. -/
theorem c9_lemma_determines_key (stem lemmatize : String → String)
    (text lemma_ : String) (hg : guardSkip text = false) (hl : lemma_ ≠ "") :
    spacy_normalizer stem lemmatize text (some lemma_) =
      joinSp ((splitOnChar ' ' lemma_.data).map (fun w => stem ⟨w⟩)) ∧
    ∀ text2 : String, guardSkip text2 = false →
      spacy_normalizer stem lemmatize text (some lemma_) =
        spacy_normalizer stem lemmatize text2 (some lemma_) := by
  have hmain : ∀ t : String, guardSkip t = false →
      spacy_normalizer stem lemmatize t (some lemma_) =
        joinSp ((splitOnChar ' ' lemma_.data).map (fun w => stem ⟨w⟩)) := by
    intro t ht
    unfold spacy_normalizer
    rw [ht]
    simp [lemmaTruthy, hl, List.map_map]
    rfl
  exact ⟨hmain text hg, fun t2 h2 => by rw [hmain text hg, hmain t2 h2]⟩

/-- Witness for C9 at concrete inputs. -/
theorem c9_witness :
    spacy_normalizer (fun s => s ++ "0") (fun s => s) "pq rs" (some "u v") =
      joinSp ((splitOnChar ' ' ("u v" : String).data).map
        (fun w => (fun s => s ++ "0") (⟨w⟩ : String))) ∧
    ∀ text2 : String, guardSkip text2 = false →
      spacy_normalizer (fun s => s ++ "0") (fun s => s) "pq rs" (some "u v") =
        spacy_normalizer (fun s => s ++ "0") (fun s => s) text2 (some "u v") :=
  c9_lemma_determines_key (fun s => s ++ "0") (fun s => s) "pq rs" "u v"
    (by decide) (by decide)

/-- Claim C5: if the spans "New York" and "NY" (lemma "New York") normalize
to the same key, and a stream of accepted occurrences contains 5 occurrences
of "NY" (`true`) and 3 of "New York" (`false`) in any interleaving, then
after all 8 occurrences `id2rep[key] = "NY"`. -/
theorem c5_ny_becomes_representative (mark : String)
    (nz : String → String → String) (lemNYk k : String)
    (h1 : normOf mark nz "NY" "New York" = k)
    (h2 : normOf mark nz "New York" lemNYk = k)
    (l : List Bool) (h5 : l.count true = 5) (h3 : l.count false = 3) :
    lookupA (foldOccs mark nz emptyGroupState
      (streamOccs "New York" "NY" lemNYk "New York" l)).id2rep k = some "NY" := by
  apply rep_majority mark nz "New York" "NY" lemNYk "New York" k (by decide) h2 h1 l
  omega

/-- Witness for C5 at a concrete normalizer and interleaving. -/
theorem c5_witness :
    lookupA (foldOccs "_" (fun _ lem => lem) emptyGroupState
      (streamOccs "New York" "NY" "New York" "New York"
        [true, false, true, false, true, false, true, true])).id2rep "New York" =
      some "NY" :=
  c5_ny_becomes_representative "_" (fun _ lem => lem) "New York" "New York"
    (by decide) (by decide) [true, false, true, false, true, false, true, true]
    (by decide) (by decide)

/-- Claim C7: when the marker character occurs inside the normalized key of
an accepted occurrence, every occurrence of the marker in the key is replaced
by a space before the key is stored (in `np2id`, `id2group`, `id2rep`), the
emitted token is computed from the substituted key, and processing simply
continues (the step is total and produces its normal output). -/
theorem c7_marker_collision_substitution (mark : String)
    (nz : String → String → String) (st : GroupState) (np lemma_ : String)
    (hcol : pyContains (nz np lemma_) mark = true) :
    lookupA (processOccurrence mark nz st np lemma_).1.np2id np =
      some (pyReplace (nz np lemma_) mark " ") ∧
    (lookupA (processOccurrence mark nz st np lemma_).1.id2group
      (pyReplace (nz np lemma_) mark " ")).isSome ∧
    (lookupA (processOccurrence mark nz st np lemma_).1.id2rep
      (pyReplace (nz np lemma_) mark " ")).isSome ∧
    (processOccurrence mark nz st np lemma_).2 =
      emitKey mark (pyReplace (nz np lemma_) mark " ") := by
  have hnorm : normOf mark nz np lemma_ = pyReplace (nz np lemma_) mark " " := by
    unfold normOf substMark
    rw [if_pos hcol]
  refine ⟨?_, ?_, ?_, ?_⟩
  · rw [occ_np2id, if_pos rfl, hnorm]
  · rw [← hnorm, occ_group_k rfl]
    rfl
  · rw [← hnorm, occ_rep_k rfl]
    rfl
  · rw [occ_out, hnorm]

/-- Witness for C7 at a concrete collision. -/
theorem c7_witness :
    lookupA (processOccurrence "_" (fun _ _ => "a_b") emptyGroupState "NP" "L").1.np2id
      "NP" = some (pyReplace "a_b" "_" " ") ∧
    (lookupA (processOccurrence "_" (fun _ _ => "a_b") emptyGroupState "NP" "L").1.id2group
      (pyReplace "a_b" "_" " ")).isSome ∧
    (lookupA (processOccurrence "_" (fun _ _ => "a_b") emptyGroupState "NP" "L").1.id2rep
      (pyReplace "a_b" "_" " ")).isSome ∧
    (processOccurrence "_" (fun _ _ => "a_b") emptyGroupState "NP" "L").2 =
      emitKey "_" (pyReplace "a_b" "_" " ") :=
  c7_marker_collision_substitution "_" (fun _ _ => "a_b") emptyGroupState "NP" "L"
    (by decide)

/-- Claim C10: on the occurrence that first inserts a variant into
`id2group[norm]`, the variant is appended to the group but the frequency
comparison against the current representative is skipped, so `id2rep[norm]`
is unchanged — even when the variant's already-incremented count exceeds the
representative's count. -/
theorem c10_first_insertion_never_changes_rep (mark : String)
    (nz : String → String → String) (st : GroupState) (np lemma_ : String)
    (g : List String) (r : String)
    (hg : lookupA st.id2group (normOf mark nz np lemma_) = some g)
    (hnp : np ∉ g)
    (hr : lookupA st.id2rep (normOf mark nz np lemma_) = some r) :
    lookupA (processOccurrence mark nz st np lemma_).1.id2group
      (normOf mark nz np lemma_) = some (g ++ [np]) ∧
    lookupA (processOccurrence mark nz st np lemma_).1.id2rep
      (normOf mark nz np lemma_) = some r := by
  constructor
  · rw [occ_group, if_pos rfl, hg]
    simp [groupNew, hnp]
  · rw [occ_rep, if_pos rfl, hg, hr]
    simp [repNew, hnp]

/-- Intermediate state for the C10 witness: "NY" counted once under key "k1",
then "x" counted once under key "k2". -/
def c10_state : GroupState :=
  foldOccs "_" (fun _ lem => lem) emptyGroupState [("NY", "k1"), ("x", "k2")]

/-- Witness for C10: inserting "NY" into the group of "k2" (where it is new)
appends it but leaves the representative "x" in place although the count of
"NY" (2, counted across two keys) exceeds the count of "x" (1). -/
theorem c10_witness :
    cntD (processOccurrence "_" (fun _ lem => lem) c10_state "NY" "k2").1.np2count
      "NY" = 2 ∧
    cntD (processOccurrence "_" (fun _ lem => lem) c10_state "NY" "k2").1.np2count
      "x" = 1 ∧
    lookupA (processOccurrence "_" (fun _ lem => lem) c10_state "NY" "k2").1.id2group
      "k2" = some (["x"] ++ ["NY"]) ∧
    lookupA (processOccurrence "_" (fun _ lem => lem) c10_state "NY" "k2").1.id2rep
      "k2" = some "x" := by
  have h := c10_first_insertion_never_changes_rep "_" (fun _ lem => lem) c10_state
    "NY" "k2" ["x"] "x" (by decide) (by decide) (by decide)
  refine ⟨by decide, by decide, ?_, ?_⟩
  · have h1 := h.1
    simpa using h1
  · have h2 := h.2
    simpa using h2

/-- Full characterization of one token step when the token lies inside the
active span and the span has not yet been written. -/
theorem token_inside_unwritten (cfg : LineCfg) (st : MarkState) (tok : Token) (sp : Span)
    (hsp : st.span = some sp)
    (hin : ¬(tok.idx < sp.start_char ∨ tok.idx ≥ sp.end_char))
    (hw : st.spanWritten = false) :
    processToken cfg st tok =
      (⟨if tok.idx + tok.text.length = sp.end_char then st.rest.tail else st.rest,
        if tok.idx + tok.text.length = sp.end_char then st.rest.head? else some sp,
        if tok.idx + tok.text.length = sp.end_char then false else true,
        if sp.text.length > 1 ∧ sp.lemma_ ≠ "-PRON-" then
          (if cfg.grouping then
            (processOccurrence cfg.mark_char cfg.normalize st.g sp.text sp.lemma_).1
           else st.g)
        else st.g⟩,
       (if sp.text.length > 1 ∧ sp.lemma_ ≠ "-PRON-" then
          (if cfg.grouping then
            (processOccurrence cfg.mark_char cfg.normalize st.g sp.text sp.lemma_).2 ++ " "
           else pyReplace sp.text " " cfg.mark_char ++ cfg.mark_char ++ " ")
        else sp.text ++ " ")) := by
  unfold processToken
  rw [hsp]
  dsimp only
  rw [if_neg hin, hw]
  simp only [Bool.not_false, if_true]
  by_cases hacc : sp.text.length > 1 ∧ sp.lemma_ ≠ "-PRON-"
  · rw [if_pos hacc]
    cases hgr : cfg.grouping with
    | true =>
      simp only [if_pos hacc, if_true]
      rcases hoc : processOccurrence cfg.mark_char cfg.normalize st.g sp.text sp.lemma_
        with ⟨go, t2⟩
      dsimp only
      by_cases hadv : tok.idx + tok.text.length = sp.end_char
      · rw [if_pos hadv]
        cases st.rest <;> simp [hadv]
      · rw [if_neg hadv]
        simp [hadv]
    | false =>
      simp only [if_pos hacc, Bool.false_eq_true, if_false]
      by_cases hadv : tok.idx + tok.text.length = sp.end_char
      · rw [if_pos hadv]
        cases st.rest <;> simp [hadv]
      · rw [if_neg hadv]
        simp [hadv]
  · rw [if_neg hacc]
    simp only [if_neg hacc]
    by_cases hadv : tok.idx + tok.text.length = sp.end_char
    · rw [if_pos hadv]
      cases st.rest <;> simp [hadv]
    · rw [if_neg hadv]
      simp [hadv]

/-- Claim C2: for a nonempty token, when there is no active span or the
token's character range lies entirely outside the active span's range, the
token text is emitted verbatim followed by a single space (skipped when the
token is purely whitespace) and the loop state is unchanged. -/
theorem c2_outside_token_verbatim (cfg : LineCfg) (st : MarkState) (tok : Token)
    (hne : tok.text ≠ "")
    (hout : st.span = none ∨ ∃ sp, st.span = some sp ∧
      (tok.idx + tok.text.length ≤ sp.start_char ∨ sp.end_char ≤ tok.idx)) :
    processToken cfg st tok =
      (st, if hasNonWs tok.text then tok.text ++ " " else "") := by
  rcases hout with hnone | ⟨sp, hsp, hrange⟩
  · unfold processToken
    rw [hnone]
  · unfold processToken
    rw [hsp]
    dsimp only
    have hlen : 0 < tok.text.length := strLengthPos _ hne
    have hcond : tok.idx < sp.start_char ∨ tok.idx ≥ sp.end_char := by
      rcases hrange with h | h
      · left
        omega
      · right
        omega
    rw [if_pos hcond]

/-- Loop state for the C2 witness: an active span at characters 5-8. -/
def c2_state : MarkState := ⟨[], some ⟨5, 8, "xyz", "xyz"⟩, false, emptyGroupState⟩

/-- Witness for C2: a token entirely before the active span is emitted
verbatim. -/
theorem c2_witness :
    processToken ⟨false, "_", fun np _ => np⟩ c2_state ⟨"ab", 0⟩ =
      (c2_state, if hasNonWs "ab" then "ab" ++ " " else "") :=
  c2_outside_token_verbatim ⟨false, "_", fun np _ => np⟩ c2_state ⟨"ab", 0⟩
    (by decide) (Or.inr ⟨⟨5, 8, "xyz", "xyz"⟩, rfl, Or.inl (by decide)⟩)

theorem occ_state_ne (mark : String) (nz : String → String → String)
    (st : GroupState) (np lem : String) :
    (processOccurrence mark nz st np lem).1 ≠ st := by
  intro he
  have h := occ_cnt mark nz st np lem np
  rw [he, if_pos rfl] at h
  omega

theorem marked_ne_verbatim (t mark : String) (hm : mark ≠ "") :
    pyReplace t " " mark ++ mark ++ " " ≠ t ++ " " := by
  intro he
  have hlen := congrArg String.length he
  rw [String.length_append, String.length_append, String.length_append] at hlen
  have h1 : t.length ≤ (pyReplace t " " mark).length := by
    rw [pyReplace_space, strLength_data, strLength_data]
    apply expandChars_length_ge
    intro c
    show 1 ≤ (if c = ' ' then mark.data else [c]).length
    by_cases hc : c = ' '
    · rw [if_pos hc]
      have hp := strLengthPos mark hm
      rw [strLength_data] at hp
      omega
    · rw [if_neg hc]
      simp
  have h2 : 0 < mark.length := strLengthPos mark hm
  omega

/-- Claim C4: at the span-write step, a span is emitted unmarked (its literal
text verbatim followed by a space, with the grouping tables untouched) if and
only if its text length is ≤ 1 or its lemma is the pronoun placeholder
`-PRON-`. -/
theorem c4_unmarked_iff_rejected (cfg : LineCfg) (st : MarkState) (tok : Token)
    (sp : Span) (hsp : st.span = some sp) (hmark : cfg.mark_char ≠ "")
    (hin : ¬(tok.idx < sp.start_char ∨ tok.idx ≥ sp.end_char))
    (hw : st.spanWritten = false) :
    ((processToken cfg st tok).2 = sp.text ++ " " ∧
      (processToken cfg st tok).1.g = st.g) ↔
    (sp.text.length ≤ 1 ∨ sp.lemma_ = "-PRON-") := by
  rw [token_inside_unwritten cfg st tok sp hsp hin hw]
  dsimp only
  by_cases hacc : sp.text.length > 1 ∧ sp.lemma_ ≠ "-PRON-"
  · rw [if_pos hacc, if_pos hacc]
    constructor
    · rintro ⟨hout, hg⟩
      exfalso
      cases hgr : cfg.grouping with
      | true =>
        rw [hgr] at hg
        simp only [if_true] at hg
        exact occ_state_ne _ _ _ _ _ hg
      | false =>
        rw [hgr] at hout
        simp only [Bool.false_eq_true, if_false] at hout
        exact marked_ne_verbatim sp.text cfg.mark_char hmark hout
    · intro hrej
      exfalso
      obtain ⟨hlen, hpron⟩ := hacc
      rcases hrej with h | h
      · omega
      · exact hpron h
  · rw [if_neg hacc, if_neg hacc]
    constructor
    · intro _
      by_cases h1 : sp.text.length ≤ 1
      · exact Or.inl h1
      · right
        by_contra h2
        exact hacc ⟨by omega, h2⟩
    · intro _
      exact ⟨rfl, rfl⟩

/-- Loop state for the C4 witness: active span "I" (length 1) covering
character 0. -/
def c4_state : MarkState := ⟨[], some ⟨0, 1, "I", "i"⟩, false, emptyGroupState⟩

/-- Witness for C4: the length-1 span "I" is emitted unmarked. -/
theorem c4_witness :
    ((processToken ⟨true, "_", fun np _ => np⟩ c4_state ⟨"I", 0⟩).2 = "I" ++ " " ∧
      (processToken ⟨true, "_", fun np _ => np⟩ c4_state ⟨"I", 0⟩).1.g =
        c4_state.g) ↔
    (("I" : String).length ≤ 1 ∨ ("i" : String) = "-PRON-") :=
  c4_unmarked_iff_rejected ⟨true, "_", fun np _ => np⟩ c4_state ⟨"I", 0⟩
    ⟨0, 1, "I", "i"⟩ rfl (by decide) (by decide) rfl

/-- Modelled from the spec's words for claim C3: "replace every internal
whitespace run in the span's literal text with the marker character, then
append one trailing marker character". -/
def markRunsSpec (mark t : String) : String :=
  (⟨joinWith mark.data (splitWsList t.data)⟩ : String) ++ mark

/-- Counterexample to claim C3: the code writes a space after every token, so
Example 1 produces "The climate_change_ is real \n" (trailing space before
the newline), not "The climate_change_ is real\n"; and `replace(' ', mark)`
replaces each space character, not whitespace runs: the span "a  b" is
emitted as "a__b_", while the spec's run-collapsing wording gives "a_b_". -/
theorem c3_counterexample :
    (processLine ⟨false, "_", fun np _ => np⟩ emptyGroupState
      [⟨"The", 0⟩, ⟨"climate", 4⟩, ⟨"change", 12⟩, ⟨"is", 19⟩, ⟨"real", 22⟩]
      [⟨4, 18, "climate change", "climate change"⟩]).2 =
      "The climate_change_ is real \n" ∧
    ("The climate_change_ is real \n" : String) ≠ "The climate_change_ is real\n" ∧
    (processLine ⟨false, "_", fun np _ => np⟩ emptyGroupState
      [⟨"a", 0⟩, ⟨"b", 3⟩] [⟨0, 4, "a  b", "x"⟩]).2 = "a__b_ \n" ∧
    markRunsSpec "_" "a  b" = "a_b_" ∧
    ("a__b_" : String) ≠ "a_b_" := by decide

/-- Claim C3 amended: in plain mode the emitted token for an accepted span is
the span's literal text with each single space character replaced by the
marker string, plus one trailing marker (followed by the separating space);
Example 1 yields "The climate_change_ is real \n", with a space before the
newline. -/
theorem c3_amended (cfg : LineCfg) (st : MarkState) (tok : Token) (sp : Span)
    (hgr : cfg.grouping = false)
    (hsp : st.span = some sp)
    (hin : ¬(tok.idx < sp.start_char ∨ tok.idx ≥ sp.end_char))
    (hw : st.spanWritten = false)
    (hacc : sp.text.length > 1 ∧ sp.lemma_ ≠ "-PRON-") :
    (processToken cfg st tok).2 =
      ((⟨expandChars (fun c => if c = ' ' then cfg.mark_char.data else [c])
          sp.text.data⟩ : String) ++ cfg.mark_char) ++ " " ∧
    (processLine ⟨false, "_", fun np _ => np⟩ emptyGroupState
      [⟨"The", 0⟩, ⟨"climate", 4⟩, ⟨"change", 12⟩, ⟨"is", 19⟩, ⟨"real", 22⟩]
      [⟨4, 18, "climate change", "climate change"⟩]).2 =
      "The climate_change_ is real \n" := by
  constructor
  · rw [token_inside_unwritten cfg st tok sp hsp hin hw]
    dsimp only
    rw [if_pos hacc, hgr]
    simp only [Bool.false_eq_true, if_false]
    rw [pyReplace_space]
  · decide

/-- Loop state for the C3 witness. -/
def c3_state : MarkState :=
  ⟨[], some ⟨4, 18, "climate change", "climate change"⟩, false, emptyGroupState⟩

/-- Witness for C3 (amended) at the Example 1 span. -/
theorem c3_witness :
    (processToken ⟨false, "_", fun np _ => np⟩ c3_state ⟨"climate", 4⟩).2 =
      ((⟨expandChars (fun c => if c = ' ' then ("_" : String).data else [c])
          ("climate change" : String).data⟩ : String) ++ "_") ++ " " ∧
    (processLine ⟨false, "_", fun np _ => np⟩ emptyGroupState
      [⟨"The", 0⟩, ⟨"climate", 4⟩, ⟨"change", 12⟩, ⟨"is", 19⟩, ⟨"real", 22⟩]
      [⟨4, 18, "climate change", "climate change"⟩]).2 =
      "The climate_change_ is real \n" :=
  c3_amended ⟨false, "_", fun np _ => np⟩ c3_state ⟨"climate", 4⟩
    ⟨4, 18, "climate change", "climate change"⟩ rfl rfl (by decide) rfl (by decide)

/-- One token handled by the outside-a-span branch of the loop (the source
condition `token.idx < span.start_char or token.idx >= span.end_char`). -/
theorem token_outside_code (cfg : LineCfg) (st : MarkState) (tok : Token) (sp : Span)
    (hsp : st.span = some sp)
    (hc : tok.idx < sp.start_char ∨ tok.idx ≥ sp.end_char) :
    processToken cfg st tok =
      (st, if hasNonWs tok.text then tok.text ++ " " else "") := by
  unfold processToken
  rw [hsp]
  dsimp only
  rw [if_pos hc]

/-- Characterization of one token step inside the active span when the span
has already been written. -/
theorem token_inside_written (cfg : LineCfg) (st : MarkState) (tok : Token) (sp : Span)
    (hsp : st.span = some sp)
    (hin : ¬(tok.idx < sp.start_char ∨ tok.idx ≥ sp.end_char))
    (hw : st.spanWritten = true) :
    processToken cfg st tok =
      (⟨if tok.idx + tok.text.length = sp.end_char then st.rest.tail else st.rest,
        if tok.idx + tok.text.length = sp.end_char then st.rest.head? else some sp,
        if tok.idx + tok.text.length = sp.end_char then false else true,
        st.g⟩, "") := by
  unfold processToken
  rw [hsp]
  dsimp only
  rw [if_neg hin, hw]
  simp only [Bool.not_true, Bool.false_eq_true, if_false]
  by_cases hadv : tok.idx + tok.text.length = sp.end_char
  · rw [if_pos hadv]
    cases st.rest <;> simp [hadv]
  · rw [if_neg hadv]
    simp [hadv]

/-- The output of a run of tokens all emitted verbatim by the outside-a-span
branch. -/
def outsideOut (toks : List Token) : String :=
  toks.foldr (fun t acc => (if hasNonWs t.text then t.text ++ " " else "") ++ acc) ""

/-- Counterexample to claim C8: with spans [1,2) (covering no token) and
[2,5) (covering "b c"), the zero-token span is indeed never emitted, but the
cursor never advances past it: the whole line "a b c" is emitted verbatim,
the second span is never marked, and the final state still holds the stuck
span with the second span still queued. -/
theorem c8_counterexample :
    (processTokens ⟨false, "_", fun np _ => np⟩
      ⟨[⟨2, 5, "b c", "b c"⟩], some ⟨1, 2, "x", "x"⟩, false, emptyGroupState⟩
      [⟨"a", 0⟩, ⟨"b", 2⟩, ⟨"c", 4⟩]).2 = "a b c " ∧
    (processTokens ⟨false, "_", fun np _ => np⟩
      ⟨[⟨2, 5, "b c", "b c"⟩], some ⟨1, 2, "x", "x"⟩, false, emptyGroupState⟩
      [⟨"a", 0⟩, ⟨"b", 2⟩, ⟨"c", 4⟩]).1.span = some ⟨1, 2, "x", "x"⟩ ∧
    (processTokens ⟨false, "_", fun np _ => np⟩
      ⟨[⟨2, 5, "b c", "b c"⟩], some ⟨1, 2, "x", "x"⟩, false, emptyGroupState⟩
      [⟨"a", 0⟩, ⟨"b", 2⟩, ⟨"c", 4⟩]).1.rest = [⟨2, 5, "b c", "b c"⟩] ∧
    (processLine ⟨false, "_", fun np _ => np⟩ emptyGroupState
      [⟨"a", 0⟩, ⟨"b", 2⟩, ⟨"c", 4⟩] [⟨1, 2, "x", "x"⟩, ⟨2, 5, "b c", "b c"⟩]).2 =
      "a b c \n" ∧
    ("a b c \n" : String) ≠ "a b_c_ \n" := by decide

/-- Claim C8 amended: a span whose range matches no token of the line is
never emitted, but the cursor does NOT advance past it — the state (active
span, queue, flag, tables) is unchanged and every token of the line is
emitted verbatim, so later spans of the line are never processed; and for a
token inside the active span, the cursor advances (resetting the
not-yet-written flag) exactly when the token's end offset equals the span's
end offset. -/
theorem c8_amended :
    (∀ (cfg : LineCfg) (st : MarkState) (sp : Span) (toks : List Token),
      st.span = some sp →
      (∀ t ∈ toks, t.idx < sp.start_char ∨ t.idx ≥ sp.end_char) →
      processTokens cfg st toks = (st, outsideOut toks)) ∧
    (∀ (cfg : LineCfg) (st : MarkState) (tok : Token) (sp : Span),
      st.span = some sp →
      ¬(tok.idx < sp.start_char ∨ tok.idx ≥ sp.end_char) →
      ((tok.idx + tok.text.length = sp.end_char →
        (processToken cfg st tok).1.span = st.rest.head? ∧
        (processToken cfg st tok).1.spanWritten = false) ∧
       (tok.idx + tok.text.length ≠ sp.end_char →
        (processToken cfg st tok).1.span = some sp ∧
        (processToken cfg st tok).1.spanWritten = true))) := by
  constructor
  · intro cfg st sp toks hsp
    induction toks with
    | nil =>
      intro _
      rfl
    | cons t ts ih =>
      intro hall
      have h1 := token_outside_code cfg st t sp hsp (hall t (by simp))
      have h2 := ih (fun x hx => hall x (by simp [hx]))
      simp only [processTokens, h1, h2]
      simp [outsideOut]
  · intro cfg st tok sp hsp hin
    constructor
    · intro hadv
      cases hw : st.spanWritten with
      | false =>
        rw [token_inside_unwritten cfg st tok sp hsp hin hw]
        simp [hadv]
      | true =>
        rw [token_inside_written cfg st tok sp hsp hin hw]
        simp [hadv]
    · intro hadv
      cases hw : st.spanWritten with
      | false =>
        rw [token_inside_unwritten cfg st tok sp hsp hin hw]
        simp [hadv]
      | true =>
        rw [token_inside_written cfg st tok sp hsp hin hw]
        simp [hadv]

/-- Witness for C8 (amended): the stuck-span line above, and an in-span token
whose end matches the span end. -/
theorem c8_witness :
    processTokens ⟨false, "_", fun np _ => np⟩
      ⟨[⟨2, 5, "b c", "b c"⟩], some ⟨1, 2, "x", "x"⟩, false, emptyGroupState⟩
      [⟨"a", 0⟩, ⟨"b", 2⟩, ⟨"c", 4⟩] =
      (⟨[⟨2, 5, "b c", "b c"⟩], some ⟨1, 2, "x", "x"⟩, false, emptyGroupState⟩,
        outsideOut [⟨"a", 0⟩, ⟨"b", 2⟩, ⟨"c", 4⟩]) ∧
    ((0 + ("aa" : String).length = 2 →
      (processToken ⟨false, "_", fun np _ => np⟩
        ⟨[], some ⟨0, 2, "aa", "z"⟩, false, emptyGroupState⟩ ⟨"aa", 0⟩).1.span =
        ([] : List Span).head? ∧
      (processToken ⟨false, "_", fun np _ => np⟩
        ⟨[], some ⟨0, 2, "aa", "z"⟩, false, emptyGroupState⟩ ⟨"aa", 0⟩).1.spanWritten =
        false) ∧
     (0 + ("aa" : String).length ≠ 2 →
      (processToken ⟨false, "_", fun np _ => np⟩
        ⟨[], some ⟨0, 2, "aa", "z"⟩, false, emptyGroupState⟩ ⟨"aa", 0⟩).1.span =
        some ⟨0, 2, "aa", "z"⟩ ∧
      (processToken ⟨false, "_", fun np _ => np⟩
        ⟨[], some ⟨0, 2, "aa", "z"⟩, false, emptyGroupState⟩ ⟨"aa", 0⟩).1.spanWritten =
        true)) :=
  ⟨c8_amended.1 ⟨false, "_", fun np _ => np⟩
      ⟨[⟨2, 5, "b c", "b c"⟩], some ⟨1, 2, "x", "x"⟩, false, emptyGroupState⟩
      ⟨1, 2, "x", "x"⟩ [⟨"a", 0⟩, ⟨"b", 2⟩, ⟨"c", 4⟩] rfl (by decide),
   c8_amended.2 ⟨false, "_", fun np _ => np⟩
      ⟨[], some ⟨0, 2, "aa", "z"⟩, false, emptyGroupState⟩ ⟨"aa", 0⟩
      ⟨0, 2, "aa", "z"⟩ rfl (by decide)⟩

/-- Grouping configuration for the C1 counterexample: grouping on, marker
`_`, `spacy_normalizer` with identity stemmer/lemmatizer. -/
def c1_cfg : LineCfg := ⟨true, "_", prepareNormalize (fun s => s) (fun s => s)⟩

/-- A one-token line whose single span has the given text and lemma. -/
def c1_line (np lem : String) : List Token × List Span :=
  ([⟨np, 0⟩], [⟨0, np.length, np, lem⟩])

/-- The C1 counterexample corpus: "pp" first normalizes to key "k1", later to
key "k2" (different lemma); "cc"/"dd" share key "k3" with the order
cc, dd, dd, cc. -/
def c1_corpus : List (List Token × List Span) :=
  [c1_line "pp" "k1", c1_line "qq" "k2", c1_line "pp" "k2",
   c1_line "cc" "k3", c1_line "dd" "k3", c1_line "dd" "k3", c1_line "cc" "k3"]

/-- Counterexample to claim C1: after the corpus, key "k2" has group
[qq, pp] with counts qq = 1, pp = 2, yet `id2rep["k2"] = "qq"` — the
representative does not have the maximum count (pp's count was partly
accumulated under key "k1"); and key "k3" has group [cc, dd] with a 2-2 tie,
yet `id2rep["k3"] = "dd"`, not the first-seen variant "cc". -/
theorem c1_counterexample :
    lookupA (processCorpus c1_cfg emptyGroupState c1_corpus).1.id2group "k2" =
      some ["qq", "pp"] ∧
    cntD (processCorpus c1_cfg emptyGroupState c1_corpus).1.np2count "pp" = 2 ∧
    cntD (processCorpus c1_cfg emptyGroupState c1_corpus).1.np2count "qq" = 1 ∧
    lookupA (processCorpus c1_cfg emptyGroupState c1_corpus).1.id2rep "k2" =
      some "qq" ∧
    lookupA (processCorpus c1_cfg emptyGroupState c1_corpus).1.id2group "k3" =
      some ["cc", "dd"] ∧
    cntD (processCorpus c1_cfg emptyGroupState c1_corpus).1.np2count "cc" = 2 ∧
    cntD (processCorpus c1_cfg emptyGroupState c1_corpus).1.np2count "dd" = 2 ∧
    lookupA (processCorpus c1_cfg emptyGroupState c1_corpus).1.id2rep "k3" =
      some "dd" := by decide

/-- Claim C1 amended: provided the normalized key (after marker substitution)
computed for a span occurrence depends only on the span's text, then after
every processed prefix of the corpus and for every key `k` present in
`id2group`, `id2rep[k]` is a member of `id2group[k]` whose `np2count` is
maximal over the group. On a tie the representative simply never changes, so
it need not be the first-seen variant among tied maxima. -/
theorem c1_amended (cfg : LineCfg) (keyOf : String → String)
    (hk : ∀ np lem, normOf cfg.mark_char cfg.normalize np lem = keyOf np)
    (lines : List (List Token × List Span)) (k : String) (g : List String)
    (hg : lookupA (processCorpus cfg emptyGroupState lines).1.id2group k = some g) :
    ∃ r, lookupA (processCorpus cfg emptyGroupState lines).1.id2rep k = some r ∧
      r ∈ g ∧
      ∀ v ∈ g, cntD (processCorpus cfg emptyGroupState lines).1.np2count v ≤
        cntD (processCorpus cfg emptyGroupState lines).1.np2count r := by
  have hInv := inv_corpus keyOf cfg hk lines emptyGroupState (inv_empty keyOf)
  exact hInv.2.2.1 k g hg

/-- Witness for C1 (amended) on a one-line corpus with a text-determined
normalizer. -/
theorem c1_witness :
    ∃ r, lookupA (processCorpus ⟨true, "_", fun np _ => np⟩ emptyGroupState
        [([⟨"ab", 0⟩], [⟨0, 2, "ab", "zz"⟩])]).1.id2rep "ab" = some r ∧
      r ∈ ["ab"] ∧
      ∀ v ∈ ["ab"],
        cntD (processCorpus ⟨true, "_", fun np _ => np⟩ emptyGroupState
          [([⟨"ab", 0⟩], [⟨0, 2, "ab", "zz"⟩])]).1.np2count v ≤
        cntD (processCorpus ⟨true, "_", fun np _ => np⟩ emptyGroupState
          [([⟨"ab", 0⟩], [⟨0, 2, "ab", "zz"⟩])]).1.np2count r :=
  c1_amended ⟨true, "_", fun np _ => np⟩ (fun np => substMark "_" np)
    (fun _ _ => rfl) [([⟨"ab", 0⟩], [⟨0, 2, "ab", "zz"⟩])] "ab" ["ab"]
    (by decide)
